import Mathlib

/-!
Shallow embedding of `py_cupom` (src/py_cupom/py_cupom.py): a base-32
codec over a custom 32-symbol alphabet with optional Luhn mod N (N = 32)
check digit.  The module targets Python 2 (its docstring says
"only Python >= 2.6 for now"), so `/` on integers is floor division and
all the checksum arithmetic is integer arithmetic.

Strings are modelled as `List Char`, Python dicts as association lists,
exceptions as `Except PyErr`.  `bin(n)[2:]` and the natural-length
computation are given fuel so that every definition is structurally
recursive and kernel-reducible.
-/

namespace PyCupom

/-- The exceptions the module can raise: `OverflowError` from `encode`,
`ValueError` from `math.log(0)` ("math domain error") and from `int('', 2)`,
`ChecksumError` from a checked `decode`, and `KeyError` from a failed
dict lookup (`BW_MAP[l]` misses carry the offending character — the
spec's `InvalidSymbol`; `FW_MAP` misses cannot occur on reachable paths). -/
inductive PyErr where
  | overflowError
  | mathDomainError
  | valueError
  | checksumError
  | keyError
  | invalidSymbol (c : Char)
  deriving DecidableEq

/-- `FW_MAP`: the forward dict literal, 5-bit binary string → canonical symbol. -/
def FW_MAP_entries : List (List Char × Char) :=
  [("00000".toList, 'A'),
   ("00001".toList, '1'),
   ("00010".toList, '2'),
   ("00011".toList, '3'),
   ("00100".toList, '4'),
   ("00101".toList, '5'),
   ("00110".toList, '6'),
   ("00111".toList, '7'),
   ("01000".toList, '8'),
   ("01001".toList, '9'),
   ("01010".toList, '0'),
   ("01011".toList, 'B'),
   ("01100".toList, 'C'),
   ("01101".toList, 'D'),
   ("01110".toList, 'E'),
   ("01111".toList, 'F'),
   ("10000".toList, 'G'),
   ("10001".toList, 'H'),
   ("10010".toList, 'J'),
   ("10011".toList, 'K'),
   ("10100".toList, 'M'),
   ("10101".toList, 'N'),
   ("10110".toList, 'P'),
   ("10111".toList, 'Q'),
   ("11000".toList, 'R'),
   ("11001".toList, 'S'),
   ("11010".toList, 'T'),
   ("11011".toList, 'V'),
   ("11100".toList, 'W'),
   ("11101".toList, 'X'),
   ("11110".toList, 'Y'),
   ("11111".toList, 'Z')]

/-- `BW_MAP`: the backward dict literal, accepted symbol → 5-bit binary
string; both letter cases plus the look-alike aliases
'I'/'i'/'L'/'l' → "00001" and 'O'/'o' → "01010". -/
def BW_MAP_entries : List (Char × List Char) :=
  [('A', "00000".toList), ('a', "00000".toList),
   ('1', "00001".toList), ('i', "00001".toList), ('I', "00001".toList),
   ('l', "00001".toList), ('L', "00001".toList),
   ('2', "00010".toList),
   ('3', "00011".toList),
   ('4', "00100".toList),
   ('5', "00101".toList),
   ('6', "00110".toList),
   ('7', "00111".toList),
   ('8', "01000".toList),
   ('9', "01001".toList),
   ('0', "01010".toList), ('O', "01010".toList), ('o', "01010".toList),
   ('B', "01011".toList), ('b', "01011".toList),
   ('C', "01100".toList), ('c', "01100".toList),
   ('D', "01101".toList), ('d', "01101".toList),
   ('E', "01110".toList), ('e', "01110".toList),
   ('F', "01111".toList), ('f', "01111".toList),
   ('G', "10000".toList), ('g', "10000".toList),
   ('H', "10001".toList), ('h', "10001".toList),
   ('J', "10010".toList), ('j', "10010".toList),
   ('K', "10011".toList), ('k', "10011".toList),
   ('M', "10100".toList), ('m', "10100".toList),
   ('N', "10101".toList), ('n', "10101".toList),
   ('P', "10110".toList), ('p', "10110".toList),
   ('Q', "10111".toList), ('q', "10111".toList),
   ('R', "11000".toList), ('r', "11000".toList),
   ('S', "11001".toList), ('s', "11001".toList),
   ('T', "11010".toList), ('t', "11010".toList),
   ('V', "11011".toList), ('v', "11011".toList),
   ('W', "11100".toList), ('w', "11100".toList),
   ('X', "11101".toList), ('x', "11101".toList),
   ('Y', "11110".toList), ('y', "11110".toList),
   ('Z', "11111".toList), ('z', "11111".toList)]

/-- `FW_MAP[bits]` as a partial lookup (`none` models `KeyError`). -/
def FW_MAP (bits : List Char) : Option Char :=
  (FW_MAP_entries.find? (fun e => e.1 == bits)).map (fun e => e.2)

/-- `BW_MAP[c]` as a partial lookup (`none` models `KeyError`). -/
def BW_MAP (c : Char) : Option (List Char) :=
  (BW_MAP_entries.find? (fun e => e.1 == c)).map (fun e => e.2)

/-- `n = len(FW_MAP)` as used by `digit` and `check`. -/
def nSyms : Nat := FW_MAP_entries.length

/-- `int(s, 2)` on a binary string (the `ValueError` on the empty string
is handled at the call site in `decode`). -/
def intOfBin (s : List Char) : Nat :=
  s.foldl (fun acc c => 2 * acc + (if c = '1' then 1 else 0)) 0

/-- Worker for `bin(n)[2:]`, most significant bit first; the first
argument is fuel keeping the recursion structural (fuel `n + 1` always
suffices since a number has at most `n + 1` binary digits). -/
def binCore : Nat → Nat → List Char → List Char
  | 0, _, acc => acc
  | fuel + 1, n, acc =>
    let acc2 := (if n % 2 = 1 then '1' else '0') :: acc
    if n / 2 = 0 then acc2 else binCore fuel (n / 2) acc2

/-- `bin(n)[2:]`: the binary representation of `n` without leading
zeros (and `"0"` for `n = 0`), most significant bit first. -/
def bin (n : Nat) : List Char := binCore (n + 1) n []

/-- Proof-side specification of `bin` for `n > 0` (empty for `n = 0`). -/
def binSpec : Nat → List Char
  | 0 => []
  | n + 1 => binSpec ((n + 1) / 2) ++ [if (n + 1) % 2 = 1 then '1' else '0']
decreasing_by simp_wf; omega

/-- Worker for the natural-length computation, searching for the least
`d ≥ d0` with `n ≤ 32 ^ d`; fuel keeps it structural. -/
def ceilLog32Go (n : Nat) : Nat → Nat → Nat
  | 0, d => d
  | fuel + 1, d => if n ≤ 32 ^ d then d else ceilLog32Go n fuel (d + 1)

/-- `int(math.ceil(math.log(n, 32)))` for `n ≥ 1`, modelled with exact
integer arithmetic: the least `d` with `n ≤ 32 ^ d` (`math.log(0)` is an
error handled in `encode`).  Fidelity bound: the source computes this in
IEEE-754 doubles, and CPython's value agrees with the exact one for
every `n ≤ 32 ^ 4` (verified exhaustively) but diverges near larger
powers of 32 — first at `n = 32 ^ 10 + 1`, where the float quotient
rounds to exactly 10.0 and CPython returns 10 instead of 11 (and at
`n = 32 ^ 11 - 18 …`, where it returns 12 instead of 11).  Theorems
about the natural-length branch are therefore stated only on the
verified range `n ≤ 32 ^ 4`, plus the exact small inputs (such as
`n = 32`, where `log(32, 32)` is exactly 1.0). -/
def ceilLog32 (n : Nat) : Nat := ceilLog32Go n n 0

/-- `s.rjust(w, c)`: left-pad with `c` to width `w`. -/
def rjust (s : List Char) (w : Nat) (c : Char) : List Char :=
  List.replicate (w - s.length) c ++ s

/-- The `for l in code[::-1]` loop that appears verbatim in both `digit`
and `check`, applied here to the already-reversed list; `digit` starts
with `factor = 2`, `check` with `factor = 1`.  `addend / n + addend % n`
is Python 2 integer (floor) arithmetic. -/
def luhnLoop : List Char → Nat → Nat → Except PyErr Nat
  | [], _, total => .ok total
  | l :: rest, factor, total =>
    match BW_MAP l with
    | none => .error (.invalidSymbol l)
    | some bits =>
      let code_point := intOfBin bits
      let addend := factor * code_point
      let factor2 := if factor = 2 then 1 else 2
      let addend2 := addend / nSyms + addend % nSyms
      luhnLoop rest factor2 (total + addend2)

/-- `digit(code)`: generate the Luhn mod N checksum digit. -/
def digit (code : List Char) : Except PyErr Char :=
  match luhnLoop code.reverse 2 0 with
  | .error e => .error e
  | .ok total =>
    let remainder := total % nSyms
    let check_code_point := (nSyms - remainder) % nSyms
    match FW_MAP (rjust (bin check_code_point) 5 '0') with
    | some ch => .ok ch
    | none => .error .keyError

/-- `check(code)`: single-pass Luhn mod N validation of code + digit. -/
def check (code : List Char) : Except PyErr Bool :=
  match luhnLoop code.reverse 1 0 with
  | .error e => .error e
  | .ok total => .ok (total % nSyms == 0)

/-- The slice list `[padded_bin[i*5:i*5+5] for i in range(0, length)]`. -/
def slices (padded_bin : List Char) (length : Nat) : List (List Char) :=
  (List.range length).map (fun i => (padded_bin.drop (5 * i)).take 5)

/-- The comprehension `[FW_MAP[b] for b in ...]`, raising `KeyError` at
the first missing key. -/
def mapFW : List (List Char) → Except PyErr (List Char)
  | [] => .ok []
  | s :: rest =>
    match FW_MAP s with
    | none => .error .keyError
    | some c => (mapFW rest).map (fun cs => c :: cs)

/-- The body of `encode` once the digit count is fixed: render `n` in
binary, left-pad to `5 * length` bits, map each 5-bit slice through
`FW_MAP`, and optionally append the checksum digit. -/
def encodeWith (n length : Nat) (check_digit : Bool) : Except PyErr (List Char) :=
  let padded_bin := rjust (bin n) (5 * length) '0'
  match mapFW (slices padded_bin length) with
  | .error e => .error e
  | .ok code =>
    if check_digit then (digit code).map (fun d => code ++ [d]) else .ok code

/-- `encode(n, length, check_digit)`.  Notes kept from the source:
`n = abs(n)`; `if length:` is false both for `None` and for `0`, so a
zero length falls through to the natural-length branch; the overflow
test is the strict `int(n) > 32**length`; `math.log(int(n), 32)` raises
on `n = 0`. -/
def encode (n0 : Int) (len? : Option Nat) (check_digit : Bool) : Except PyErr (List Char) :=
  let n : Nat := n0.natAbs
  match len? with
  | some l =>
    if l ≠ 0 then
      if 32 ^ l < n then .error .overflowError
      else encodeWith n l check_digit
    else
      if n = 0 then .error .mathDomainError
      else encodeWith n (ceilLog32 n) check_digit
  | none =>
    if n = 0 then .error .mathDomainError
    else encodeWith n (ceilLog32 n) check_digit

/-- The comprehension `[BW_MAP[l] for l in str(s)]`, raising `KeyError`
at the first character outside the accepted alphabet. -/
def mapBW : List Char → Except PyErr (List (List Char))
  | [] => .ok []
  | l :: rest =>
    match BW_MAP l with
    | none => .error (.invalidSymbol l)
    | some bits => (mapBW rest).map (fun bs => bits :: bs)

/-- `decode(s, check_digit)`: optionally validate and drop the trailing
checksum symbol, then read the concatenated 5-bit groups as binary
(`int('', 2)` on an empty join is a `ValueError`). -/
def decode (s : List Char) (check_digit : Bool) : Except PyErr Nat :=
  let body? : Except PyErr (List Char) :=
    if check_digit then
      match check s with
      | .error e => .error e
      | .ok true => .ok s.dropLast
      | .ok false => .error .checksumError
    else .ok s
  match body? with
  | .error e => .error e
  | .ok body =>
    match mapBW body with
    | .error e => .error e
    | .ok groups =>
      let joined := groups.flatten
      if joined = [] then .error .valueError else .ok (intOfBin joined)

/-! Spec-side restatement of the checksum-digit computation, written
from the words of spec §4.4, to be compared with the source-derived
`digit` (claim C4). -/

/-- Spec §4.4 folding step: "if the product is ≥ N, fold it by adding
its integer quotient by N to its remainder modulo N" (for a product
below N the quotient is 0, so the expression is the identity there). -/
def foldSpec (x : Nat) : Nat := x / 32 + x % 32

/-- Spec §4.4 running total: process the (already last-to-first) value
list with an alternating multiplier, folding each product and summing. -/
def totalSpec : List Nat → Nat → Nat
  | [], _ => 0
  | v :: rest, m => foldSpec (m * v) + totalSpec rest (if m = 2 then 1 else 2)

/-- "Convert each symbol to its 5-bit group's integer value (0–31)";
`none` when some symbol is not in the accepted alphabet. -/
def symVals : List Char → Option (List Nat)
  | [] => some []
  | c :: rest =>
    match BW_MAP c with
    | none => none
    | some bits => (symVals rest).map (fun vs => intOfBin bits :: vs)

/-- Spec §4.4 checksum digit: total the folded products last-to-first
with the multiplier starting at 2, and return `Alphabet.forward` of
`(N - total mod N) mod N`. -/
def digitLuhnSpec (code : List Char) : Option Char :=
  match symVals code with
  | none => none
  | some vals =>
    let total := totalSpec vals.reverse 2
    FW_MAP (rjust (bin ((32 - total % 32) % 32)) 5 '0')

/-- The alias pairs of claim C7: the two cases of every letter in the
backward table, '1' with 'I'/'i'/'L'/'l', and '0' with 'O'/'o'. -/
def aliasPairs : List (Char × Char) :=
  [('A', 'a'), ('B', 'b'), ('C', 'c'), ('D', 'd'), ('E', 'e'), ('F', 'f'),
   ('G', 'g'), ('H', 'h'), ('I', 'i'), ('J', 'j'), ('K', 'k'), ('L', 'l'),
   ('M', 'm'), ('N', 'n'), ('O', 'o'), ('P', 'p'), ('Q', 'q'), ('R', 'r'),
   ('S', 's'), ('T', 't'), ('V', 'v'), ('W', 'w'), ('X', 'x'), ('Y', 'y'),
   ('Z', 'z'),
   ('1', 'I'), ('1', 'i'), ('1', 'L'), ('1', 'l'),
   ('0', 'O'), ('0', 'o')]

/-- Two characters are alias-related when they are equal or form one of
the listed case/look-alike pairs (in either order). -/
abbrev aliasOK (a b : Char) : Prop :=
  a = b ∨ (a, b) ∈ aliasPairs ∨ (b, a) ∈ aliasPairs

/-- The 5-bit key of group value `g`, exactly as `digit` rebuilds it:
`bin(g)[2:].rjust(5, '0')`. -/
def bits5 (g : Nat) : List Char := rjust (bin g) 5 '0'

/-- The 5-bit group value a character decodes to (0 when unaccepted). -/
def gval (c : Char) : Nat := intOfBin ((BW_MAP c).getD [])

/-! ### Binary-string lemmas -/

theorem intOfBin_go (s : List Char) (a : Nat) :
    s.foldl (fun acc c => 2 * acc + (if c = '1' then 1 else 0)) a
      = a * 2 ^ s.length + intOfBin s := by
  induction s generalizing a with
  | nil => simp [intOfBin]
  | cons c t ih =>
    simp only [List.foldl_cons, List.length_cons, intOfBin]
    rw [ih, ih (2 * 0 + (if c = '1' then 1 else 0))]
    ring

theorem intOfBin_append (s t : List Char) :
    intOfBin (s ++ t) = intOfBin s * 2 ^ t.length + intOfBin t := by
  simp only [intOfBin, List.foldl_append]
  rw [intOfBin_go]
  rfl

theorem intOfBin_replicate_zero (k : Nat) :
    intOfBin (List.replicate k '0') = 0 := by
  induction k with
  | zero => rfl
  | succ m ih =>
    simp only [List.replicate_succ, intOfBin, List.foldl_cons] at *
    simpa using ih

theorem intOfBin_rjust_zero (s : List Char) (w : Nat) :
    intOfBin (rjust s w '0') = intOfBin s := by
  simp [rjust, intOfBin_append, intOfBin_replicate_zero]

theorem binSpec_zero : binSpec 0 = [] := by rw [binSpec]

theorem binSpec_succ (n : Nat) :
    binSpec (n + 1)
      = binSpec ((n + 1) / 2) ++ [if (n + 1) % 2 = 1 then '1' else '0'] := by
  rw [binSpec]

theorem intOfBin_binSpec (n : Nat) : intOfBin (binSpec n) = n := by
  induction n using Nat.strong_induction_on with
  | _ n ih =>
    match n with
    | 0 => simp [binSpec_zero, intOfBin]
    | m + 1 =>
      rw [binSpec_succ, intOfBin_append, ih ((m + 1) / 2) (by omega)]
      rcases Nat.mod_two_eq_zero_or_one (m + 1) with h | h <;>
        simp [h, intOfBin] <;> omega

theorem binSpec_length_le (n k : Nat) (h : n < 2 ^ k) :
    (binSpec n).length ≤ k := by
  induction n using Nat.strong_induction_on generalizing k with
  | _ n ih =>
    match n with
    | 0 => simp [binSpec_zero]
    | m + 1 =>
      match k with
      | 0 => omega
      | j + 1 =>
        rw [binSpec_succ]
        have h2 : (m + 1) / 2 < 2 ^ j := by
          have : (2 : Nat) ^ (j + 1) = 2 * 2 ^ j := by ring
          omega
        have := ih ((m + 1) / 2) (by omega) j h2
        simp only [List.length_append, List.length_singleton]
        omega

theorem binSpec_binary (n : Nat) : ∀ c ∈ binSpec n, c = '0' ∨ c = '1' := by
  induction n using Nat.strong_induction_on with
  | _ n ih =>
    match n with
    | 0 => simp [binSpec_zero]
    | m + 1 =>
      rw [binSpec_succ]
      intro c hc
      rcases List.mem_append.mp hc with h | h
      · exact ih ((m + 1) / 2) (by omega) c h
      · simp only [List.mem_singleton] at h
        subst h
        split <;> simp

theorem binCore_eq (fuel : Nat) :
    ∀ n acc, 0 < fuel → n < 2 ^ fuel →
      binCore fuel n acc = (if n = 0 then ['0'] else binSpec n) ++ acc := by
  induction fuel with
  | zero => omega
  | succ f ih =>
    intro n acc _ hn
    by_cases h0 : n = 0
    · subst h0; simp [binCore]
    · simp only [binCore, if_neg h0]
      by_cases h1 : n / 2 = 0
      · have hn1 : n = 1 := by omega
        subst hn1
        norm_num [binSpec_succ, binSpec_zero]
      · rw [if_neg h1]
        have hf : 0 < f := by
          rcases Nat.eq_zero_or_pos f with hf0 | hf0
          · subst hf0; simp at hn; omega
          · exact hf0
        have h2 : n / 2 < 2 ^ f := by
          have : (2 : Nat) ^ (f + 1) = 2 * 2 ^ f := by ring
          omega
        rw [ih (n / 2) _ hf h2, if_neg h1]
        have : binSpec n = binSpec (n / 2) ++ [if n % 2 = 1 then '1' else '0'] := by
          match n, h0 with
          | m + 1, _ => rw [binSpec_succ]
        rw [this, List.append_assoc]
        rfl

theorem bin_eq (n : Nat) : bin n = if n = 0 then ['0'] else binSpec n := by
  have h := binCore_eq (n + 1) n [] (Nat.succ_pos n)
    (lt_of_lt_of_le (Nat.lt_two_pow n)
      (Nat.pow_le_pow_right (by norm_num) (Nat.le_succ n)))
  simpa [bin] using h

theorem intOfBin_bin (n : Nat) : intOfBin (bin n) = n := by
  rw [bin_eq]
  by_cases h : n = 0
  · subst h; rfl
  · rw [if_neg h]; exact intOfBin_binSpec n

theorem bin_length_le (n k : Nat) (hk : 0 < k) (h : n < 2 ^ k) :
    (bin n).length ≤ k := by
  rw [bin_eq]
  by_cases h0 : n = 0
  · subst h0; simpa using hk
  · rw [if_neg h0]; exact binSpec_length_le n k h

theorem bin_binary (n : Nat) : ∀ c ∈ bin n, c = '0' ∨ c = '1' := by
  rw [bin_eq]
  by_cases h0 : n = 0
  · subst h0; simp
  · rw [if_neg h0]; exact binSpec_binary n

theorem rjust_length (s : List Char) (w : Nat) (c : Char) (h : s.length ≤ w) :
    (rjust s w c).length = w := by
  simp [rjust]
  omega

theorem rjust_zero_binary (s : List Char) (w : Nat)
    (h : ∀ c ∈ s, c = '0' ∨ c = '1') :
    ∀ c ∈ rjust s w '0', c = '0' ∨ c = '1' := by
  intro c hc
  rcases List.mem_append.mp hc with h1 | h1
  · left; exact (List.eq_of_mem_replicate h1)
  · exact h c h1

/-! ### Alphabet-table lemmas -/

theorem nSyms_eq : nSyms = 32 := rfl

theorem fw_bw : ∀ g < 32, (FW_MAP (bits5 g)).bind BW_MAP = some (bits5 g) := by
  decide

theorem intOfBin_bits5 : ∀ g < 32, intOfBin (bits5 g) = g := by
  decide

theorem bits5_length : ∀ g < 32, (bits5 g).length = 5 := by
  decide

theorem bw_entries_fact :
    ∀ e ∈ BW_MAP_entries, intOfBin e.2 < 32 ∧ e.2 = bits5 (intOfBin e.2) := by
  decide

theorem bw_shape (c : Char) (bits : List Char) (h : BW_MAP c = some bits) :
    intOfBin bits < 32 ∧ bits = bits5 (intOfBin bits) := by
  simp only [BW_MAP, Option.map_eq_some'] at h
  obtain ⟨e, he, h2⟩ := h
  have := bw_entries_fact e (List.mem_of_find?_eq_some he)
  rw [← h2]
  exact this

theorem binary5 (s : List Char) (h5 : s.length = 5)
    (hb : ∀ c ∈ s, c = '0' ∨ c = '1') :
    intOfBin s < 32 ∧ s = bits5 (intOfBin s) := by
  rcases s with _ | ⟨a, _ | ⟨b, _ | ⟨c, _ | ⟨d, _ | ⟨e, _ | ⟨f, t⟩⟩⟩⟩⟩⟩ <;>
    try (exfalso; simp only [List.length_cons, List.length_nil] at h5; omega)
  have ha := hb a (by simp)
  have hbb := hb b (by simp)
  have hc := hb c (by simp)
  have hd := hb d (by simp)
  have he := hb e (by simp)
  rcases ha with rfl | rfl <;> rcases hbb with rfl | rfl <;>
    rcases hc with rfl | rfl <;> rcases hd with rfl | rfl <;>
    rcases he with rfl | rfl <;> decide

/-! ### Slicing lemmas -/

theorem slices_length (p : List Char) (d : Nat) : (slices p d).length = d := by
  simp [slices]

theorem slices_succ (p : List Char) (m : Nat) :
    slices p (m + 1) = p.take 5 :: slices (p.drop 5) m := by
  simp only [slices, List.range_succ_eq_map, List.map_cons, List.map_map,
    Nat.mul_zero, List.drop_zero]
  congr 1
  apply List.map_congr_left
  intro i _
  simp only [Function.comp_apply, List.drop_drop]
  congr 2
  omega

theorem slices_flatten (d : Nat) : ∀ p : List Char, p.length = 5 * d →
    (slices p d).flatten = p := by
  induction d with
  | zero =>
    intro p hp
    have : p = [] := List.eq_nil_of_length_eq_zero (by omega)
    subst this; rfl
  | succ m ih =>
    intro p hp
    rw [slices_succ, List.flatten_cons,
      ih (p.drop 5) (by simp only [List.length_drop]; omega),
      List.take_append_drop]

theorem slices_mem (p : List Char) (d : Nat) (hp : p.length = 5 * d) :
    ∀ s ∈ slices p d, s.length = 5 ∧ ∀ c ∈ s, c ∈ p := by
  intro s hs
  simp only [slices, List.mem_map, List.mem_range] at hs
  obtain ⟨i, hi, rfl⟩ := hs
  refine ⟨?_, ?_⟩
  · simp only [List.length_take, List.length_drop]
    omega
  · intro c hc
    exact List.mem_of_mem_drop (List.mem_of_mem_take hc)

/-! ### Lookup-comprehension lemmas -/

theorem mapFW_ok (L : List (List Char)) (h : ∀ s ∈ L, (FW_MAP s).isSome) :
    mapFW L = .ok (L.map fun s => (FW_MAP s).getD 'A') := by
  induction L with
  | nil => rfl
  | cons s rest ih =>
    obtain ⟨c, hc⟩ := Option.isSome_iff_exists.mp (h s (by simp))
    simp [mapFW, hc, ih (fun x hx => h x (by simp [hx])), Except.map]

theorem mapBW_ok (l : List Char) (h : ∀ c ∈ l, (BW_MAP c).isSome) :
    mapBW l = .ok (l.map fun c => (BW_MAP c).getD []) := by
  induction l with
  | nil => rfl
  | cons c rest ih =>
    obtain ⟨bits, hb⟩ := Option.isSome_iff_exists.mp (h c (by simp))
    simp [mapBW, hb, ih (fun x hx => h x (by simp [hx])), Except.map]

theorem mapBW_congr (s t : List Char)
    (h : List.Forall₂
      (fun a b => a = b ∨ (BW_MAP a = BW_MAP b ∧ (BW_MAP a).isSome)) s t) :
    mapBW s = mapBW t := by
  induction h with
  | nil => rfl
  | cons hab _ ih =>
    rcases hab with rfl | ⟨heq, hsome⟩
    · simp only [mapBW, ih]
    · obtain ⟨bits, hb⟩ := Option.isSome_iff_exists.mp hsome
      simp only [mapBW, hb, heq ▸ hb, ih]

theorem mapBW_first_error (pre : List Char) (c : Char) (post : List Char)
    (hpre : ∀ ch ∈ pre, (BW_MAP ch).isSome) (hc : BW_MAP c = none) :
    mapBW (pre ++ c :: post) = .error (.invalidSymbol c) := by
  induction pre with
  | nil => simp [mapBW, hc]
  | cons a rest ih =>
    obtain ⟨bits, hb⟩ := Option.isSome_iff_exists.mp (hpre a (by simp))
    simp [mapBW, hb, ih (fun x hx => hpre x (by simp [hx])), Except.map]

theorem bw_getD_length (ch : Char) (h : (BW_MAP ch).isSome) :
    ((BW_MAP ch).getD []).length = 5 := by
  obtain ⟨bits, hb⟩ := Option.isSome_iff_exists.mp h
  obtain ⟨hlt, hshape⟩ := bw_shape ch bits hb
  rw [hb, Option.getD_some, hshape]
  exact bits5_length _ hlt

/-! ### Luhn-loop lemmas -/

theorem luhn_totalSpec (l : List Char) (h : ∀ ch ∈ l, (BW_MAP ch).isSome) :
    ∀ f t, luhnLoop l f t = .ok (t + totalSpec (l.map gval) f) := by
  induction l with
  | nil => intro f t; simp [luhnLoop, totalSpec]
  | cons c rest ih =>
    intro f t
    obtain ⟨bits, hb⟩ := Option.isSome_iff_exists.mp (h c (by simp))
    simp only [luhnLoop, hb, List.map_cons, totalSpec]
    rw [ih (fun x hx => h x (by simp [hx]))]
    have hg : gval c = intOfBin bits := by simp [gval, hb]
    simp only [foldSpec, hg, nSyms_eq]
    congr 1
    omega

theorem digit_unfold (code : List Char) (T : Nat)
    (hloop : luhnLoop code.reverse 2 0 = .ok T) :
    digit code =
      match FW_MAP (bits5 ((32 - T % 32) % 32)) with
      | some ch => .ok ch
      | none => .error .keyError := by
  simp only [digit, hloop, nSyms_eq, bits5]

theorem check_unfold (code : List Char) (T : Nat)
    (hloop : luhnLoop code.reverse 1 0 = .ok T) :
    check code = .ok (T % 32 == 0) := by
  simp only [check, hloop, nSyms_eq]

theorem digit_eq (code : List Char) (h : ∀ ch ∈ code, (BW_MAP ch).isSome) :
    ∃ ch, digit code = .ok ch ∧
      FW_MAP (bits5 ((32 - totalSpec ((code.map gval).reverse) 2 % 32) % 32)) = some ch ∧
      BW_MAP ch = some (bits5 ((32 - totalSpec ((code.map gval).reverse) 2 % 32) % 32)) := by
  have hrev : ∀ ch ∈ code.reverse, (BW_MAP ch).isSome :=
    fun ch hc => h ch (List.mem_reverse.mp hc)
  have hloop := luhn_totalSpec code.reverse hrev 2 0
  rw [List.map_reverse, Nat.zero_add] at hloop
  have hglt : (32 - totalSpec ((code.map gval).reverse) 2 % 32) % 32 < 32 :=
    Nat.mod_lt _ (by norm_num)
  obtain ⟨ch, hch, hbw⟩ := Option.bind_eq_some.mp (fw_bw _ hglt)
  exact ⟨ch, by rw [digit_unfold code _ hloop, hch], hch, hbw⟩

theorem check_concat (body : List Char) (last : Char) (bitsL : List Char)
    (hb : BW_MAP last = some bitsL) (hacc : ∀ ch ∈ body, (BW_MAP ch).isSome) :
    check (body ++ [last]) =
      .ok ((intOfBin bitsL + totalSpec ((body.map gval).reverse) 2) % 32 == 0) := by
  have hgl : intOfBin bitsL < 32 := (bw_shape _ _ hb).1
  have hrev : ∀ ch ∈ body.reverse, (BW_MAP ch).isSome :=
    fun ch hc => hacc ch (List.mem_reverse.mp hc)
  have hloop := luhn_totalSpec body.reverse hrev 2 (intOfBin bitsL)
  rw [List.map_reverse] at hloop
  have hrw : (body ++ [last]).reverse = last :: body.reverse := by
    simp
  have hif : (if (1 : Nat) = 2 then (1 : Nat) else 2) = 2 := by norm_num
  have h0 : 0 + (1 * intOfBin bitsL / 32 + 1 * intOfBin bitsL % 32)
      = intOfBin bitsL := by omega
  simp only [check, hrw, luhnLoop, hb, nSyms_eq, hif, h0, hloop]

/-! ### The encode/decode core -/

theorem pow32_eq (d : Nat) : (32 : Nat) ^ d = 2 ^ (5 * d) := by
  rw [pow_mul]
  norm_num

theorem encodeWith_core (v d : Nat) (hd : 0 < d) (hv : v < 32 ^ d) :
    ∃ code : List Char,
      mapFW (slices (rjust (bin v) (5 * d) '0') d) = .ok code ∧
      encodeWith v d false = .ok code ∧
      code.length = d ∧
      (∀ ch ∈ code, (BW_MAP ch).isSome) ∧
      mapBW code = .ok (slices (rjust (bin v) (5 * d) '0') d) ∧
      decode code false = .ok v := by
  have hv2 : v < 2 ^ (5 * d) := by rw [← pow32_eq]; exact hv
  have hlenP : (rjust (bin v) (5 * d) '0').length = 5 * d :=
    rjust_length _ _ _ (bin_length_le v (5 * d) (by omega) hv2)
  set P := rjust (bin v) (5 * d) '0' with hP
  have hbinP : ∀ c ∈ P, c = '0' ∨ c = '1' := rjust_zero_binary _ _ (bin_binary v)
  have hslice : ∀ s ∈ slices P d, ∃ ch, FW_MAP s = some ch ∧ BW_MAP ch = some s := by
    intro s hs
    obtain ⟨hs5, hsub⟩ := slices_mem P d hlenP s hs
    obtain ⟨hlt, hshape⟩ := binary5 s hs5 (fun c hc => hbinP c (hsub c hc))
    have hfb := fw_bw _ hlt
    rw [← hshape] at hfb
    exact Option.bind_eq_some.mp hfb
  have hfwsome : ∀ s ∈ slices P d, (FW_MAP s).isSome := by
    intro s hs
    obtain ⟨ch, h1, _⟩ := hslice s hs
    simp [h1]
  refine ⟨(slices P d).map (fun s => (FW_MAP s).getD 'A'),
    mapFW_ok _ hfwsome, ?_, ?_, ?_, ?_, ?_⟩
  · simp only [encodeWith, ← hP, mapFW_ok _ hfwsome, Bool.false_eq_true,
      if_false]
  · simp [slices_length]
  · intro ch hch
    rw [List.mem_map] at hch
    obtain ⟨s, hs, rfl⟩ := hch
    obtain ⟨ch', h1, h2⟩ := hslice s hs
    simp [h1, h2]
  · have hbwsome : ∀ ch ∈ (slices P d).map (fun s => (FW_MAP s).getD 'A'),
        (BW_MAP ch).isSome := by
      intro ch hch
      rw [List.mem_map] at hch
      obtain ⟨s, hs, rfl⟩ := hch
      obtain ⟨ch', h1, h2⟩ := hslice s hs
      simp [h1, h2]
    rw [mapBW_ok _ hbwsome, List.map_map]
    congr 1
    have hpt : ∀ s ∈ slices P d,
        (BW_MAP ((FW_MAP s).getD 'A')).getD [] = s := by
      intro s hs
      obtain ⟨ch, h1, h2⟩ := hslice s hs
      simp [h1, h2]
    calc (slices P d).map ((fun c => (BW_MAP c).getD []) ∘ (fun s => (FW_MAP s).getD 'A'))
        = (slices P d).map (fun s => s) := List.map_congr_left hpt
      _ = slices P d := List.map_id' _
  · have hbwsome : ∀ ch ∈ (slices P d).map (fun s => (FW_MAP s).getD 'A'),
        (BW_MAP ch).isSome := by
      intro ch hch
      rw [List.mem_map] at hch
      obtain ⟨s, hs, rfl⟩ := hch
      obtain ⟨ch', h1, h2⟩ := hslice s hs
      simp [h1, h2]
    have hmbw : mapBW ((slices P d).map (fun s => (FW_MAP s).getD 'A'))
        = .ok (slices P d) := by
      rw [mapBW_ok _ hbwsome, List.map_map]
      congr 1
      have hpt : ∀ s ∈ slices P d,
          (BW_MAP ((FW_MAP s).getD 'A')).getD [] = s := by
        intro s hs
        obtain ⟨ch, h1, h2⟩ := hslice s hs
        simp [h1, h2]
      calc (slices P d).map ((fun c => (BW_MAP c).getD []) ∘ (fun s => (FW_MAP s).getD 'A'))
          = (slices P d).map (fun s => s) := List.map_congr_left hpt
        _ = slices P d := List.map_id' _
    have hflat : (slices P d).flatten = P := slices_flatten d P hlenP
    have hPne : P ≠ [] := by
      intro hnil
      rw [hnil] at hlenP
      simp at hlenP
      omega
    have hiP : intOfBin P = v := by
      rw [hP, intOfBin_rjust_zero, intOfBin_bin]
    simp only [decode, Bool.false_eq_true, if_false, hmbw, hflat,
      if_neg hPne, hiP]

/-! ### Natural-length lemmas -/

theorem ceilLog32Go_le (n : Nat) :
    ∀ fuel d, n ≤ 32 ^ (d + fuel) → n ≤ 32 ^ (ceilLog32Go n fuel d) := by
  intro fuel
  induction fuel with
  | zero => intro d h; simpa [ceilLog32Go] using h
  | succ f ih =>
    intro d h
    by_cases hc : n ≤ 32 ^ d
    · simp [ceilLog32Go, hc]
    · simp only [ceilLog32Go, if_neg hc]
      exact ih (d + 1) (by rw [show d + 1 + f = d + (f + 1) by omega]; exact h)

theorem ceilLog32Go_min (n : Nat) :
    ∀ fuel d, (∀ e, e < d → 32 ^ e < n) →
      ∀ e, e < ceilLog32Go n fuel d → 32 ^ e < n := by
  intro fuel
  induction fuel with
  | zero => intro d h; simpa [ceilLog32Go] using h
  | succ f ih =>
    intro d h
    by_cases hc : n ≤ 32 ^ d
    · simpa [ceilLog32Go, hc] using h
    · simp only [ceilLog32Go, if_neg hc]
      refine ih (d + 1) ?_
      intro e he
      rcases Nat.lt_succ_iff_lt_or_eq.mp he with h1 | rfl
      · exact h e h1
      · omega

theorem ceilLog32_le_pow (n : Nat) : n ≤ 32 ^ ceilLog32 n := by
  refine ceilLog32Go_le n n 0 ?_
  have h1 : n < 2 ^ n := Nat.lt_two_pow n
  have h2 : (2 : Nat) ^ n ≤ 32 ^ n := Nat.pow_le_pow_left (by norm_num) n
  simpa using le_of_lt (lt_of_lt_of_le h1 h2)

theorem ceilLog32_min (n : Nat) : ∀ e, e < ceilLog32 n → 32 ^ e < n :=
  ceilLog32Go_min n n 0 (by omega)

theorem symVals_ok (l : List Char) (h : ∀ c ∈ l, (BW_MAP c).isSome) :
    symVals l = some (l.map gval) := by
  induction l with
  | nil => rfl
  | cons c rest ih =>
    obtain ⟨bits, hb⟩ := Option.isSome_iff_exists.mp (h c (by simp))
    simp [symVals, hb, ih (fun x hx => h x (by simp [hx])), gval]

theorem decode_true_of_check (s : List Char) (h : check s = .ok true) :
    decode s true = decode s.dropLast false := by
  simp only [decode, h, Bool.false_eq_true, if_false, if_true]

theorem aliasPairs_bw :
    ∀ p ∈ aliasPairs, BW_MAP p.1 = BW_MAP p.2 ∧ (BW_MAP p.1).isSome := by
  decide

/-! ### Claims -/

/-- C1: for every non-negative integer `v` and every positive digit
count `d` with `v < 32 ^ d`, decoding the unchecked encoding
round-trips: `decode(encode(v, d)) == v`. -/
theorem claim_C1_round_trip (v d : Nat) (hd : 0 < d) (hv : v < 32 ^ d) :
    ∃ code, encode (v : Int) (some d) false = .ok code ∧
      decode code false = .ok v := by
  obtain ⟨code, _, henc, _, _, _, hdec⟩ := encodeWith_core v d hd hv
  refine ⟨code, ?_, hdec⟩
  simp only [encode, Int.natAbs_ofNat]
  rw [if_pos (show d ≠ 0 by omega), if_neg (show ¬ 32 ^ d < v by omega)]
  exact henc

/-- Witness for C1 at the repository's own test vector `v = 1234`,
`d = 4`. -/
theorem claim_C1_round_trip_witness :
    0 < 4 ∧ 1234 < 32 ^ 4 ∧
      ∃ code, encode (1234 : Int) (some 4) false = .ok code ∧
        decode code false = .ok 1234 :=
  ⟨by norm_num, by norm_num,
    claim_C1_round_trip 1234 4 (by norm_num) (by norm_num)⟩

/-- C2: for every non-negative integer `v` and every positive digit
count `d` with `v < 32 ^ d`, the checksummed encoding round-trips and
validates: `decode(encode(v, d, true), true) == v` and
`check(encode(v, d, true)) == true`. -/
theorem claim_C2_checksum_round_trip (v d : Nat) (hd : 0 < d)
    (hv : v < 32 ^ d) :
    ∃ code, encode (v : Int) (some d) true = .ok code ∧
      decode code true = .ok v ∧ check code = .ok true := by
  obtain ⟨body, hmfw, _, _, hacc, _, hdec⟩ := encodeWith_core v d hd hv
  obtain ⟨ch, hdig, _, hbwch⟩ := digit_eq body hacc
  have hGlt : (32 - totalSpec ((body.map gval).reverse) 2 % 32) % 32 < 32 :=
    Nat.mod_lt _ (by norm_num)
  have hcheck : check (body ++ [ch]) = .ok true := by
    have hcc := check_concat body ch _ hbwch hacc
    rw [intOfBin_bits5 _ hGlt] at hcc
    rw [hcc]
    have hzero : ((32 - totalSpec ((body.map gval).reverse) 2 % 32) % 32
        + totalSpec ((body.map gval).reverse) 2) % 32 = 0 := by omega
    simp [hzero]
  refine ⟨body ++ [ch], ?_, ?_, hcheck⟩
  · have henc : encodeWith v d true = .ok (body ++ [ch]) := by
      simp [encodeWith, hmfw, hdig, Except.map]
    simp only [encode, Int.natAbs_ofNat]
    rw [if_pos (show d ≠ 0 by omega), if_neg (show ¬ 32 ^ d < v by omega)]
    exact henc
  · rw [decode_true_of_check _ hcheck, List.dropLast_concat]
    exact hdec

/-- Witness for C2 at `v = 1234`, `d = 4`. -/
theorem claim_C2_checksum_round_trip_witness :
    0 < 4 ∧ 1234 < 32 ^ 4 ∧
      ∃ code, encode (1234 : Int) (some 4) true = .ok code ∧
        decode code true = .ok 1234 ∧ check code = .ok true :=
  ⟨by norm_num, by norm_num,
    claim_C2_checksum_round_trip 1234 4 (by norm_num) (by norm_num)⟩

/-- C3 is wrong about the code: the overflow test in `encode` is the
strict `int(n) > 32**length`, so `encode(32**d, d)` does not raise
`OverflowError`; at `d = 1` it silently returns `"G"`, the same code as
`encode(16, 1)`, and `"G"` decodes to 16, not 32.  This contradicts the
module's own docstring ("Collision-free 1 to 1 mapping for positive
integers"; "Maximum range can be calculated as 32 elevated to the number
of digits used"), so the code, not the claim, is at fault.  The actual
boundary: `encode(31, 1)` and `encode(32, 1)` succeed,
`encode(33, 1)` raises. -/
theorem claim_C3_overflow_boundary_bug :
    encode (32 : Int) (some 1) false = .ok ['G'] ∧
    decode ['G'] false = .ok 16 ∧
    encode (16 : Int) (some 1) false = .ok ['G'] ∧
    encode (31 : Int) (some 1) false = .ok ['Z'] ∧
    encode (33 : Int) (some 1) false = .error .overflowError :=
  ⟨rfl, rfl, rfl, rfl, rfl⟩

/-- C6 as stated is false: at `n = 32` (a power of 32) the natural
length `ceil(log32(32)) = 1` is not enough digits, and the un-padded
code does not decode back to `n`: `encode(32)` is `"G"`, which decodes
to 16. -/
theorem claim_C6_counterexample :
    encode (32 : Int) none false = .ok ['G'] ∧
    decode ['G'] false = .ok 16 ∧ (16 : Nat) ≠ 32 :=
  ⟨rfl, rfl, by norm_num⟩

/-- C6 amended: for every `n` with `2 ≤ n ≤ 32 ^ 4` that is not a power
of 32, the natural-length `encode(n)` produces `ceil(log32(n))` digits,
that count is minimal (`n` fits in it and in no smaller count), and
`decode(encode(n)) == n`.  Two restrictions are forced by the program:
at powers of 32 (including `n = 1`) `ceil(log32(n))` is one digit short,
as the counterexample shows; and beyond `32 ^ 4` the claim is scoped to
the range on which the source's floating-point `ceil(log(n, 32))` is
exhaustively verified to equal the exact value — near larger powers of
32 the float rounds to the wrong side (CPython returns 10 at
`n = 32 ^ 10 + 1`, so the real program truncates there and the round
trip fails even off powers of 32). -/
theorem claim_C6_natural_length_amended (n : Nat) (hn : 2 ≤ n)
    (hrange : n ≤ 32 ^ 4) (hnp : ∀ k, n ≠ 32 ^ k) :
    ∃ code, encode (n : Int) none false = .ok code ∧
      decode code false = .ok n ∧
      code.length = ceilLog32 n ∧
      n < 32 ^ code.length ∧
      (∀ e, n < 32 ^ e → code.length ≤ e) := by
  have hle := ceilLog32_le_pow n
  have hlt : n < 32 ^ ceilLog32 n := lt_of_le_of_ne hle (hnp _)
  have hd : 0 < ceilLog32 n := by
    rcases Nat.eq_zero_or_pos (ceilLog32 n) with h0 | h
    · rw [h0] at hle
      simp at hle
      omega
    · exact h
  obtain ⟨code, _, henc, hlen, _, _, hdec⟩ :=
    encodeWith_core n (ceilLog32 n) hd hlt
  refine ⟨code, ?_, hdec, hlen, by rw [hlen]; exact hlt, ?_⟩
  · simp only [encode, Int.natAbs_ofNat]
    rw [if_neg (show ¬ n = 0 by omega)]
    exact henc
  · intro e he
    rw [hlen]
    by_contra hcon
    push_neg at hcon
    have := ceilLog32_min n e hcon
    omega

/-- Witness for the amended C6 at `n = 1234` (between `32^2` and
`32^3`, inside the verified range, not a power of 32). -/
theorem claim_C6_natural_length_amended_witness :
    2 ≤ 1234 ∧ (1234 : Nat) ≤ 32 ^ 4 ∧ (∀ k, (1234 : Nat) ≠ 32 ^ k) ∧
      ∃ code, encode (1234 : Int) none false = .ok code ∧
        decode code false = .ok 1234 ∧
        code.length = ceilLog32 1234 ∧
        1234 < 32 ^ code.length ∧
        (∀ e, 1234 < 32 ^ e → code.length ≤ e) := by
  have hnp : ∀ k, (1234 : Nat) ≠ 32 ^ k := by
    intro k
    match k with
    | 0 => decide
    | 1 => decide
    | 2 => decide
    | m + 3 =>
      have h1 : (32 : Nat) ^ 3 ≤ 32 ^ (m + 3) :=
        Nat.pow_le_pow_right (by norm_num) (by omega)
      have h2 : (32 : Nat) ^ 3 = 32768 := by norm_num
      omega
  exact ⟨by norm_num, by norm_num, hnp,
    claim_C6_natural_length_amended 1234 (by norm_num) (by norm_num) hnp⟩

/-- C10: `encode(0)` with the length omitted, and `encode(0, 0)`, take
`math.log(0)` in the natural-length branch and fail with a math-domain
`ValueError`; no minimum-one-digit convention exists for `n == 0`. -/
theorem claim_C10_encode_zero :
    encode 0 none false = .error .mathDomainError ∧
    encode 0 (some 0) false = .error .mathDomainError ∧
    encode 0 none true = .error .mathDomainError ∧
    encode 0 (some 0) true = .error .mathDomainError :=
  ⟨rfl, rfl, rfl, rfl⟩

/-- C4: on any code of accepted symbols, the source `digit` agrees with
the spec-side Luhn mod 32 description `digitLuhnSpec` (symbols last to
first, multiplier alternating 2,1,2,…, each product folded by adding its
integer quotient by 32 to its remainder modulo 32, and the result symbol
`Alphabet.forward` of `(32 - total mod 32) mod 32`).  The source targets
Python 2, where `addend / n` on integers is floor division, so the
arithmetic is integer arithmetic as claimed. -/
theorem claim_C4_digit_integer_luhn (code : List Char)
    (h : ∀ ch ∈ code, (BW_MAP ch).isSome) :
    ∃ ch, digit code = .ok ch ∧ digitLuhnSpec code = some ch := by
  obtain ⟨ch, hdig, hfw, _⟩ := digit_eq code h
  refine ⟨ch, hdig, ?_⟩
  simp only [digitLuhnSpec, symVals_ok code h]
  exact hfw

/-- Witness for C4 at the code `"A16J"`. -/
theorem claim_C4_digit_integer_luhn_witness :
    (∀ ch ∈ ("A16J".toList), (BW_MAP ch).isSome) ∧
      ∃ ch, digit ("A16J".toList) = .ok ch ∧
        digitLuhnSpec ("A16J".toList) = some ch :=
  ⟨by decide, claim_C4_digit_integer_luhn ("A16J".toList) (by decide)⟩

/-- C5: for a non-empty string of accepted symbols, split as
`body ++ [last]`, the single-pass validator is equivalent to
recompute-and-compare: `check` succeeds iff the trailing symbol carries
the same 5-bit group as the recomputed digit of the body. -/
theorem claim_C5_check_equiv_recompute (body : List Char) (last : Char)
    (hacc : ∀ ch ∈ body, (BW_MAP ch).isSome) (hl : (BW_MAP last).isSome) :
    check (body ++ [last]) = .ok true ↔
      ∃ dch, digit body = .ok dch ∧ BW_MAP last = BW_MAP dch := by
  obtain ⟨bitsL, hbL⟩ := Option.isSome_iff_exists.mp hl
  obtain ⟨hglt, hshapeL⟩ := bw_shape _ _ hbL
  obtain ⟨dch, hdig, _, hbwd⟩ := digit_eq body hacc
  have hGlt : (32 - totalSpec ((body.map gval).reverse) 2 % 32) % 32 < 32 :=
    Nat.mod_lt _ (by norm_num)
  have hcc := check_concat body last bitsL hbL hacc
  constructor
  · intro h
    rw [hcc] at h
    have hx : (intOfBin bitsL + totalSpec ((body.map gval).reverse) 2) % 32
        = 0 := by
      have := Except.ok.inj h
      simpa using this
    have hLG : intOfBin bitsL
        = (32 - totalSpec ((body.map gval).reverse) 2 % 32) % 32 := by
      omega
    refine ⟨dch, hdig, ?_⟩
    rw [hbL, hbwd, ← hLG, ← hshapeL]
  · rintro ⟨dch', hdig', heq⟩
    have hde : dch' = dch := by
      rw [hdig] at hdig'
      exact (Except.ok.inj hdig').symm
    subst hde
    rw [hbL, hbwd] at heq
    have hbits := Option.some.inj heq
    have hLG : intOfBin bitsL
        = (32 - totalSpec ((body.map gval).reverse) 2 % 32) % 32 := by
      rw [hbits]
      exact intOfBin_bits5 _ hGlt
    rw [hcc]
    have hx : (intOfBin bitsL + totalSpec ((body.map gval).reverse) 2) % 32
        = 0 := by omega
    simp [hx]

/-- Witness for C5 at `body = "1"`, `last = 'Y'` (the digit of `"1"`). -/
theorem claim_C5_check_equiv_recompute_witness :
    (∀ ch ∈ ['1'], (BW_MAP ch).isSome) ∧ (BW_MAP 'Y').isSome ∧
      (check (['1'] ++ ['Y']) = .ok true ↔
        ∃ dch, digit ['1'] = .ok dch ∧ BW_MAP 'Y' = BW_MAP dch) :=
  ⟨by decide, by decide,
    claim_C5_check_equiv_recompute ['1'] 'Y' (by decide) (by decide)⟩

/-- C7: `decode` is case- and alias-insensitive: `decode("a16j")` equals
`decode("A16J")`, and replacing symbols pointwise by their other case or
by the '1'/'I'/'L' and '0'/'O' look-alikes (the `aliasPairs` table)
never changes the result of an unchecked decode. -/
theorem claim_C7_alias_insensitive :
    decode ("a16j".toList) false = decode ("A16J".toList) false ∧
    ∀ s t : List Char, List.Forall₂ aliasOK s t →
      decode s false = decode t false := by
  have hgen : ∀ s t : List Char, List.Forall₂ aliasOK s t →
      decode s false = decode t false := by
    intro s t h
    have h2 : List.Forall₂
        (fun a b => a = b ∨ (BW_MAP a = BW_MAP b ∧ (BW_MAP a).isSome)) s t := by
      refine h.imp ?_
      intro a b hab
      rcases hab with rfl | hmem | hmem
      · exact Or.inl rfl
      · exact Or.inr ⟨(aliasPairs_bw _ hmem).1, (aliasPairs_bw _ hmem).2⟩
      · obtain ⟨heq, hsome⟩ := aliasPairs_bw _ hmem
        refine Or.inr ⟨heq.symm, ?_⟩
        rw [← heq]
        exact hsome
    have hm := mapBW_congr s t h2
    simp only [decode, Bool.false_eq_true, if_false, hm]
  refine ⟨hgen _ _ ?_, hgen⟩
  exact List.Forall₂.cons (by decide)
    (List.Forall₂.cons (by decide)
      (List.Forall₂.cons (by decide)
        (List.Forall₂.cons (by decide) List.Forall₂.nil)))

/-- Witness for C7: swapping case in both positions of `"Ro"`. -/
theorem claim_C7_alias_insensitive_witness :
    decode ("Ro".toList) false = decode ("rO".toList) false :=
  claim_C7_alias_insensitive.2 _ _
    (List.Forall₂.cons (by decide)
      (List.Forall₂.cons (by decide) List.Forall₂.nil))

/-- C8: prepending the zero-group symbol 'A' to a (non-empty, accepted)
code never changes the decoded value; concretely
`decode("AAA1") == decode("1") == 1` and `encode(1, 4) == "AAA1"`. -/
theorem claim_C8_zero_padding :
    (∀ c : List Char, c ≠ [] → (∀ ch ∈ c, (BW_MAP ch).isSome) →
      decode ('A' :: c) false = decode c false) ∧
    decode ("AAA1".toList) false = .ok 1 ∧
    decode ("1".toList) false = .ok 1 ∧
    encode (1 : Int) (some 4) false = .ok ("AAA1".toList) := by
  refine ⟨?_, rfl, rfl, rfl⟩
  intro c hne hacc
  have hAbw : BW_MAP 'A' = some ("00000".toList) := rfl
  have hmc := mapBW_ok c hacc
  set groups := c.map (fun ch => (BW_MAP ch).getD []) with hgroups
  have hmac : mapBW ('A' :: c) = .ok ("00000".toList :: groups) := by
    simp [mapBW, hAbw, hmc, Except.map]
  have hflatne : groups.flatten ≠ [] := by
    obtain ⟨c0, rest, rfl⟩ : ∃ c0 rest, c = c0 :: rest := by
      cases c with
      | nil => exact absurd rfl hne
      | cons a b => exact ⟨a, b, rfl⟩
    rw [hgroups]
    simp only [List.map_cons, List.flatten_cons]
    intro habs
    have hlen0 : ((BW_MAP c0).getD []).length = 5 :=
      bw_getD_length c0 (hacc c0 (by simp))
    have hlen := congrArg List.length habs
    simp only [List.length_append, List.length_nil] at hlen
    omega
  have hflatne2 : ("00000".toList :: groups).flatten ≠ [] := by
    simp only [List.flatten_cons]
    intro habs
    have hlen := congrArg List.length habs
    simp only [List.length_append, List.length_nil] at hlen
    have h5 : ("00000".toList).length = 5 := rfl
    omega
  simp only [decode, Bool.false_eq_true, if_false, hmac, hmc]
  rw [if_neg hflatne2, if_neg hflatne, List.flatten_cons, intOfBin_append]
  have hz : intOfBin ("00000".toList) = 0 := rfl
  rw [hz]
  simp

/-- Witness for C8 at `c = "1"`. -/
theorem claim_C8_zero_padding_witness :
    decode ['A', '1'] false = decode ['1'] false :=
  claim_C8_zero_padding.1 ['1'] (by simp) (by decide)

/-- C9: an unchecked decode of a string containing a character outside
the accepted alphabet fails with the invalid-symbol error carrying the
first offending character; in particular `decode("A16$")` fails with
`InvalidSymbol` at '$'. -/
theorem claim_C9_invalid_symbol :
    (∀ (pre : List Char) (c : Char) (post : List Char),
      (∀ ch ∈ pre, (BW_MAP ch).isSome) → BW_MAP c = none →
      decode (pre ++ c :: post) false = .error (.invalidSymbol c)) ∧
    decode ("A16$".toList) false = .error (.invalidSymbol '$') := by
  have hgen : ∀ (pre : List Char) (c : Char) (post : List Char),
      (∀ ch ∈ pre, (BW_MAP ch).isSome) → BW_MAP c = none →
      decode (pre ++ c :: post) false = .error (.invalidSymbol c) := by
    intro pre c post hpre hc
    have hm := mapBW_first_error pre c post hpre hc
    simp only [decode, Bool.false_eq_true, if_false, hm]
  exact ⟨hgen, hgen ("A16".toList) '$' [] (by decide) (by decide)⟩

/-- Witness for C9 at `pre = "Z"`, `c = '$'`, `post = ""`. -/
theorem claim_C9_invalid_symbol_witness :
    decode ['Z', '$'] false = .error (.invalidSymbol '$') :=
  claim_C9_invalid_symbol.1 ['Z'] '$' [] (by decide) (by decide)

end PyCupom
